import Mathlib

/-!
Shallow embedding of `mlxtend/classifier/adaline.py` (the `Adaline`
ADAptive LInear NEuron classifier).

Numeric values are modelled by `ℚ`; matrices are lists of row vectors.
Randomness (`np.random.ranf` in `_init_weights`, `np.random.permutation`
in `_shuffle`) is modelled by explicit streams passed to `fit`: `us` is the
stream of uniform draws for weight initialization, `perms` gives the
permutation drawn at each epoch.  Errors raised by `fit` carry the
`Model` state at the moment of the raise, mirroring the fact that a
Python exception leaves the already-mutated instance attributes in place.
-/

namespace Adaline

/- Batteries marks the arithmetic on `Rat` `@[irreducible]`; re-allow
unfolding so that concrete runs of the model evaluate by `decide`. -/
attribute [local semireducible] Rat.inv Rat.mul Rat.add Rat.sub Rat.ofScientific

abbrev Vec := List ℚ
abbrev Mat := List (List ℚ)

/-- The three recognized values of the `solver` constructor option. -/
inductive Solver
  | gd
  | sgd
  | normalEq
deriving DecidableEq

/-- Constructor hyperparameters (`__init__`), immutable after construction. -/
structure Config where
  eta : ℚ
  epochs : ℕ
  solver : Solver
  shuffle : Bool
  zero_init_weight : Bool
deriving DecidableEq

/-- The learned instance attributes: `classes_`, `thres_`, `w_`, `cost_`. -/
structure Model where
  classes_ : List ℚ
  thres_ : ℚ
  w_ : List ℚ
  cost_ : List ℚ
deriving DecidableEq

/-- The errors `fit` can raise (after the shape check, which is inherent in
the `Mat` representation): the label-domain `ValueError`, the
`LinAlgError` from `np.linalg.inv` on a singular matrix, and the shape
mismatch `ValueError` from `np.dot` when the weight vector length does not
match the feature count. -/
inductive FitErr
  | labelDomain
  | singularMatrix
  | dimMismatch
deriving DecidableEq

instance {ε α : Type} [DecidableEq ε] [DecidableEq α] : DecidableEq (Except ε α)
  | .error a, .error b =>
    if h : a = b then isTrue (congrArg Except.error h)
    else isFalse fun hc => h (Except.error.inj hc)
  | .error _, .ok _ => isFalse fun hc => Except.noConfusion hc
  | .ok _, .error _ => isFalse fun hc => Except.noConfusion hc
  | .ok a, .ok b =>
    if h : a = b then isTrue (congrArg Except.ok h)
    else isFalse fun hc => h (Except.ok.inj hc)

/-- `np.unique(y)`: the sorted list of distinct values of `y`. -/
def npUnique (y : List ℚ) : List ℚ :=
  List.insertionSort (· ≤ ·) y.dedup

/-- The label validation of `fit` (lines 79-81): exactly two distinct
values, the smaller in `{-1, 0}`, the larger equal to `1`. -/
def labelsOK (cs : List ℚ) : Bool :=
  decide (cs.length = 2 ∧ (cs.getD 0 0 = -1 ∨ cs.getD 0 0 = 0) ∧ cs.getD 1 0 = 1)

/-- Dot product of two vectors (`np.dot` on aligned 1-D arrays). -/
def dotL (a b : Vec) : ℚ :=
  (List.zipWith (· * ·) a b).sum

/-- `net_input` on a single sample: `np.dot(x, w_[1:]) + w_[0]`. -/
def net_input (w : Vec) (x : Vec) : ℚ :=
  dotL x w.tail + w.headD 0

/-- `net_input` on a matrix: one linear score per row. -/
def net_inputM (w : Vec) (X : Mat) : Vec :=
  X.map (net_input w)

/-- `activation`: identity pass-through of `net_input`. -/
def activation (w : Vec) (X : Mat) : Vec :=
  net_inputM w X

/-- `predict`: `np.where(net_input(X) >= thres_, classes_[1], classes_[0])`. -/
def predict (m : Model) (X : Mat) : Vec :=
  X.map fun x =>
    if m.thres_ ≤ net_input m.w_ x then m.classes_.getD 1 0 else m.classes_.getD 0 0

/-- `_init_weights(shape)`: all zeros when `zero_init_weight`, otherwise
`0.2 * np.random.ranf(shape) - 0.5` with the uniform draws taken from the
stream `us`. -/
def init_weights (zero : Bool) (shape : ℕ) (us : ℕ → ℚ) : Vec :=
  if zero then List.replicate shape 0
  else (List.range shape).map fun i => 0.2 * us i - 0.5

/-- `_shuffle`: apply the drawn permutation `r` of row indices to `X` and
`y` in unison (`X[r], y[r]`). -/
def shuffle_rows (r : List ℕ) (X : Mat) (y : Vec) : Mat × Vec :=
  (r.map fun i => X.getD i [], r.map fun i => y.getD i 0)

/-- One `gd` epoch body (lines 106-110): `errors = y - activation(X)`
computed with the weights as they stand at the start of the epoch, then
`w_[1:] += eta * X.T.dot(errors)`, `w_[0] += eta * errors.sum()`, and the
epoch cost `(errors**2).sum() / 2`. -/
def gdEpoch (eta : ℚ) (X : Mat) (y : Vec) (w : Vec) : Vec × ℚ :=
  let errors := List.zipWith (· - ·) y (X.map (net_input w))
  ((w.headD 0 + eta * errors.sum) ::
      (List.range w.tail.length).map (fun j =>
        w.tail.getD j 0 + eta * (List.zipWith (fun r e => r.getD j 0 * e) X errors).sum),
    (errors.map fun e => e ^ 2).sum / 2)

/-- One `sgd` per-sample update (lines 115-118): `error = yi - net_input(xi)`,
then `w_[1:] += eta * xi.dot(error)` and `w_[0] += eta * error`. -/
def sgdStep (eta : ℚ) (w : Vec) (xi : Vec) (yi : ℚ) : Vec :=
  let error := yi - net_input w xi
  (w.headD 0 + eta * error) ::
    List.zipWith (fun wj xj => wj + eta * xj * error) w.tail xi

/-- One `sgd` epoch over the zipped samples, threading the weight vector
and the accumulated cost `sum(error_i^2 / 2)`; `np.dot(xi, w_[1:])` raises
when the sample length does not match `len(w_) - 1`. -/
def sgdEpochChk (eta : ℚ) : List (Vec × ℚ) → Vec → ℚ → Except FitErr (Vec × ℚ)
  | [], w, cost => .ok (w, cost)
  | (xi, yi) :: rest, w, cost =>
    if xi.length = w.tail.length then
      sgdEpochChk eta rest (sgdStep eta w xi yi)
        (cost + (yi - net_input w xi) ^ 2 / 2)
    else .error .dimMismatch

/-- Number of columns of the feature table (`X.shape[1]`). -/
def numFeatures (X : Mat) : ℕ :=
  (X.headD []).length

/-- One epoch of the iterative solvers: `sgd` when `useSgd`, otherwise `gd`
(whose `np.dot(X, w_[1:])` raises when `X.shape[1] ≠ len(w_) - 1`). -/
def epochStep (eta : ℚ) (useSgd : Bool) (X : Mat) (y : Vec) (w : Vec) :
    Except FitErr (Vec × ℚ) :=
  if useSgd then sgdEpochChk eta (X.zip y) w 0
  else if numFeatures X = w.tail.length then .ok (gdEpoch eta X y w)
  else .error .dimMismatch

/-- The `for _ in range(self.epochs)` loop of `fit` (lines 100-120):
optionally reassigns `X, y` to their shuffled versions, runs one epoch of
the selected iterative solver, and appends the epoch cost to `cost_`.
`epochs` is the total epoch count (used to index the permutation stream);
the first argument counts the remaining epochs.  On an error the weights
and cost history accumulated so far are carried out. -/
def trainLoop (eta : ℚ) (useSgd : Bool) (doShuffle : Bool)
    (perms : ℕ → List ℕ) (epochs : ℕ) :
    ℕ → Mat → Vec → Vec → List ℚ → Except (FitErr × Vec × List ℚ) (Vec × List ℚ)
  | 0, _, _, w, costs => .ok (w, costs)
  | k + 1, X, y, w, costs =>
    let p := if doShuffle then shuffle_rows (perms (epochs - (k + 1))) X y else (X, y)
    match epochStep eta useSgd p.1 p.2 w with
    | .error e => .error (e, w, costs)
    | .ok (w', cost) =>
      trainLoop eta useSgd doShuffle perms epochs k p.1 p.2 w' (costs ++ [cost])

/-- The augmented design matrix `Xb = np.hstack((np.ones((m, 1)), X))`:
every row gets a constant `1.0` prepended. -/
def designMat (X : Mat) : Mat :=
  X.map fun r => 1 :: r

/-- `Xb.T.dot(Xb)` as a `(1+n) × (1+n)` matrix: entry `(i, j)` sums
`Xb[k][i] * Xb[k][j]` over the rows `k`. -/
def gram (X : Mat) : Matrix (Fin (1 + numFeatures X)) (Fin (1 + numFeatures X)) ℚ :=
  Matrix.of fun i j => ((designMat X).map fun r => r.getD (i : ℕ) 0 * r.getD (j : ℕ) 0).sum

/-- `Xb.T.dot(y)`: entry `i` sums `Xb[k][i] * y[k]` over the rows `k`. -/
def xty (X : Mat) (y : Vec) : Fin (1 + numFeatures X) → ℚ :=
  fun i => (List.zipWith (fun r yi => r.getD (i : ℕ) 0 * yi) (designMat X) y).sum

/-- `_normal_equation`: prepend a constant `1.0` column forming `Xb`,
invert `Xb.T.dot(Xb)` (`np.linalg.inv` raises the singular-matrix error
exactly when the determinant vanishes; otherwise the inverse is
`det⁻¹ • adjugate`), and return `inv(Xb.T Xb) . (Xb.T y)`. -/
def normal_equation (X : Mat) (y : Vec) : Except FitErr Vec :=
  if (gram X).det = 0 then .error .singularMatrix
  else
    .ok ((List.finRange (1 + numFeatures X)).map fun i =>
      ∑ j, (gram X).det⁻¹ * (gram X).adjugate i j * xty X y j)

/-- `fit(X, y, init_weights)`: set `classes_ := np.unique(y)`, validate the
labels (raising before `thres_`, `w_` or `cost_` are touched), select the
threshold, (re)initialize the weights when `initw`, reset `cost_` to empty,
and dispatch on the solver. -/
def fit (c : Config) (us : ℕ → ℚ) (perms : ℕ → List ℕ)
    (m : Model) (X : Mat) (y : Vec) (initw : Bool) :
    Except (FitErr × Model) Model :=
  let classes := npUnique y
  let m1 : Model := { m with classes_ := classes }
  if labelsOK classes then
    let m2 : Model := { m1 with thres_ := if classes.getD 0 0 = -1 then 0 else 1 / 2 }
    let w0 : Vec :=
      if initw then init_weights c.zero_init_weight (1 + numFeatures X) us else m2.w_
    let m3 : Model := { m2 with w_ := w0, cost_ := [] }
    match c.solver with
    | .normalEq =>
      match normal_equation X y with
      | .error e => .error (e, m3)
      | .ok w => .ok { m3 with w_ := w }
    | .gd =>
      match trainLoop c.eta false c.shuffle perms c.epochs c.epochs X y w0 [] with
      | .error (e, w', costs) => .error (e, { m3 with w_ := w', cost_ := costs })
      | .ok (w', costs) => .ok { m3 with w_ := w', cost_ := costs }
    | .sgd =>
      match trainLoop c.eta true c.shuffle perms c.epochs c.epochs X y w0 [] with
      | .error (e, w', costs) => .error (e, { m3 with w_ := w', cost_ := costs })
      | .ok (w', costs) => .ok { m3 with w_ := w', cost_ := costs }
  else .error (.labelDomain, m1)

/-! ### Lemmas about label validation -/

lemma npUnique_sorted (y : List ℚ) : (npUnique y).Sorted (· ≤ ·) :=
  List.sorted_insertionSort _ _

lemma npUnique_nodup (y : List ℚ) : (npUnique y).Nodup :=
  ((List.perm_insertionSort _ _).nodup_iff).2 (List.nodup_dedup y)

lemma mem_npUnique_iff {y : List ℚ} {a : ℚ} : a ∈ npUnique y ↔ a ∈ y := by
  rw [npUnique, List.mem_insertionSort, List.mem_dedup]

lemma mem_npUnique {y : List ℚ} {a : ℚ} (h : a ∈ npUnique y) : a ∈ y :=
  mem_npUnique_iff.1 h

lemma npUnique_toFinset (y : List ℚ) : (npUnique y).toFinset = y.toFinset := by
  rw [List.toFinset.ext_iff]
  intro x
  exact mem_npUnique_iff

lemma npUnique_length (y : List ℚ) : (npUnique y).length = y.toFinset.card := by
  rw [← npUnique_toFinset, List.toFinset_card_of_nodup (npUnique_nodup y)]

/-- A sorted duplicate-free list whose element set is the doubleton
`{a, b}` with `a < b` is exactly `[a, b]`. -/
lemma sorted_nodup_pair {l : List ℚ} {a b : ℚ} (hab : a < b)
    (hs : l.Sorted (· ≤ ·)) (hn : l.Nodup) (hf : l.toFinset = {a, b}) :
    l = [a, b] := by
  have hcard : ({a, b} : Finset ℚ).card = 2 := by
    rw [Finset.card_insert_of_not_mem (by simp [ne_of_lt hab]), Finset.card_singleton]
  have hlen : l.length = 2 := by
    rw [← List.toFinset_card_of_nodup hn, hf, hcard]
  match l, hlen, hs, hn, hf with
  | [x0, x1], _, hs, hn, hf =>
    have hx0 : x0 = a ∨ x0 = b := by
      have : x0 ∈ ({a, b} : Finset ℚ) := hf ▸ List.mem_toFinset.2 (by simp)
      simpa using this
    have hx1 : x1 = a ∨ x1 = b := by
      have : x1 ∈ ({a, b} : Finset ℚ) := hf ▸ List.mem_toFinset.2 (by simp)
      simpa using this
    have hle : x0 ≤ x1 := (List.sorted_cons.1 hs).1 x1 (by simp)
    have hne : x0 ≠ x1 := by
      intro h
      exact (List.nodup_cons.1 hn).1 (by simp [h])
    rcases hx0 with h0 | h0 <;> rcases hx1 with h1 | h1
    · exact absurd (h0.trans h1.symm) hne
    · rw [h0, h1]
    · rw [h0, h1] at hle
      exact absurd hle (not_le.2 hab)
    · exact absurd (h0.trans h1.symm) hne

lemma labelsOK_iff {cs : List ℚ} :
    labelsOK cs = true ↔
      cs.length = 2 ∧ (cs.getD 0 0 = -1 ∨ cs.getD 0 0 = 0) ∧ cs.getD 1 0 = 1 := by
  simp [labelsOK]

lemma length_two_pair {cs : List ℚ} (h : cs.length = 2) :
    cs = [cs.getD 0 0, cs.getD 1 0] := by
  match cs, h with
  | [a, b], _ => rfl

/-- The validation `fit` performs accepts exactly the label sets `{0,1}`
and `{-1,1}`. -/
lemma labelsOK_npUnique_iff {y : List ℚ} :
    labelsOK (npUnique y) = true ↔
      y.toFinset = ({0, 1} : Finset ℚ) ∨ y.toFinset = ({-1, 1} : Finset ℚ) := by
  constructor
  · intro h
    obtain ⟨hlen, hlo, hhi⟩ := labelsOK_iff.1 h
    have hpair := length_two_pair hlen
    have hfs : y.toFinset = {(npUnique y).getD 0 0, (npUnique y).getD 1 0} := by
      rw [← npUnique_toFinset y]
      conv_lhs => rw [hpair]
      simp
    rcases hlo with h0 | h0
    · right
      rw [hfs, h0, hhi]
    · left
      rw [hfs, h0, hhi]
  · rintro (h | h)
    · have : npUnique y = [0, 1] :=
        sorted_nodup_pair (by norm_num) (npUnique_sorted y) (npUnique_nodup y)
          (by rw [npUnique_toFinset, h])
      rw [this]
      decide
    · have : npUnique y = [-1, 1] :=
        sorted_nodup_pair (by norm_num) (npUnique_sorted y) (npUnique_nodup y)
          (by rw [npUnique_toFinset, h])
      rw [this]
      decide

/-! ### Iterated epoch runs (for stating what the training loop computes) -/

/-- The decision threshold `fit` stores (lines 84-87). -/
def thresOf (y : List ℚ) : ℚ :=
  if (npUnique y).getD 0 0 = -1 then 0 else 1 / 2

/-- The weight vector `fit` starts training from (lines 90-91). -/
def w0Of (c : Config) (us : ℕ → ℚ) (m : Model) (X : Mat) (initw : Bool) : Vec :=
  if initw then init_weights c.zero_init_weight (1 + numFeatures X) us else m.w_

/-- `k` batch-gradient-descent epochs on fixed data. -/
def gdIter (eta : ℚ) (X : Mat) (y : Vec) : ℕ → Vec → Vec
  | 0, w => w
  | k + 1, w => gdIter eta X y k (gdEpoch eta X y w).1

/-- The costs recorded by `k` batch-gradient-descent epochs, in order. -/
def gdCosts (eta : ℚ) (X : Mat) (y : Vec) : ℕ → Vec → List ℚ
  | 0, _ => []
  | k + 1, w => (gdEpoch eta X y w).2 :: gdCosts eta X y k (gdEpoch eta X y w).1

/-- One `sgd` epoch as a pure fold: samples processed one at a time in
order, each error computed with the current partially updated weights and
applied immediately, the epoch cost accumulating `error^2 / 2` per sample. -/
def sgdEpochPure (eta : ℚ) (X : Mat) (y : Vec) (w : Vec) : Vec × ℚ :=
  (X.zip y).foldl
    (fun acc p => (sgdStep eta acc.1 p.1 p.2, acc.2 + (p.2 - net_input acc.1 p.1) ^ 2 / 2))
    (w, 0)

/-- `k` stochastic-gradient-descent epochs on fixed data. -/
def sgdIter (eta : ℚ) (X : Mat) (y : Vec) : ℕ → Vec → Vec
  | 0, w => w
  | k + 1, w => sgdIter eta X y k (sgdEpochPure eta X y w).1

/-- The costs recorded by `k` stochastic-gradient-descent epochs. -/
def sgdCosts (eta : ℚ) (X : Mat) (y : Vec) : ℕ → Vec → List ℚ
  | 0, _ => []
  | k + 1, w => (sgdEpochPure eta X y w).2 :: sgdCosts eta X y k (sgdEpochPure eta X y w).1

/-! ### Structure of `fit` after successful label validation -/

lemma fit_labelErr {c : Config} {us : ℕ → ℚ} {perms : ℕ → List ℕ} {m : Model}
    {X : Mat} {y : Vec} {initw : Bool} (h : labelsOK (npUnique y) = false) :
    fit c us perms m X y initw = .error (.labelDomain, { m with classes_ := npUnique y }) := by
  simp [fit, h]

lemma fit_gd_run {c : Config} {us : ℕ → ℚ} {perms : ℕ → List ℕ} {m : Model}
    {X : Mat} {y : Vec} {initw : Bool}
    (hlab : labelsOK (npUnique y) = true) (hsol : c.solver = .gd) :
    fit c us perms m X y initw =
      match trainLoop c.eta false c.shuffle perms c.epochs c.epochs X y
          (w0Of c us m X initw) [] with
      | .error (e, w', costs) => .error (e, ⟨npUnique y, thresOf y, w', costs⟩)
      | .ok (w', costs) => .ok ⟨npUnique y, thresOf y, w', costs⟩ := by
  obtain ⟨eta, ep, sol, sh, zi⟩ := c
  simp only [Config.solver] at hsol
  subst hsol
  simp only [fit, hlab, if_true, w0Of, thresOf]

lemma fit_sgd_run {c : Config} {us : ℕ → ℚ} {perms : ℕ → List ℕ} {m : Model}
    {X : Mat} {y : Vec} {initw : Bool}
    (hlab : labelsOK (npUnique y) = true) (hsol : c.solver = .sgd) :
    fit c us perms m X y initw =
      match trainLoop c.eta true c.shuffle perms c.epochs c.epochs X y
          (w0Of c us m X initw) [] with
      | .error (e, w', costs) => .error (e, ⟨npUnique y, thresOf y, w', costs⟩)
      | .ok (w', costs) => .ok ⟨npUnique y, thresOf y, w', costs⟩ := by
  obtain ⟨eta, ep, sol, sh, zi⟩ := c
  simp only [Config.solver] at hsol
  subst hsol
  simp only [fit, hlab, if_true, w0Of, thresOf]

lemma fit_neq_run {c : Config} {us : ℕ → ℚ} {perms : ℕ → List ℕ} {m : Model}
    {X : Mat} {y : Vec} {initw : Bool}
    (hlab : labelsOK (npUnique y) = true) (hsol : c.solver = .normalEq) :
    fit c us perms m X y initw =
      match normal_equation X y with
      | .error e => .error (e, ⟨npUnique y, thresOf y, w0Of c us m X initw, []⟩)
      | .ok w => .ok ⟨npUnique y, thresOf y, w, []⟩ := by
  obtain ⟨eta, ep, sol, sh, zi⟩ := c
  simp only [Config.solver] at hsol
  subst hsol
  simp only [fit, hlab, if_true, w0Of, thresOf]

/-! ### The `gd` training loop without shuffling -/

lemma gdEpoch_tail_length (eta : ℚ) (X : Mat) (y : Vec) (w : Vec) :
    (gdEpoch eta X y w).1.tail.length = w.tail.length := by
  simp [gdEpoch]

lemma gdEpoch_length (eta : ℚ) (X : Mat) (y : Vec) (w : Vec) :
    (gdEpoch eta X y w).1.length = 1 + w.tail.length := by
  simp [gdEpoch, Nat.add_comm]

lemma trainLoop_gd_noshuffle (eta : ℚ) (perms : ℕ → List ℕ) (E : ℕ) (X : Mat) (y : Vec) :
    ∀ (k : ℕ) (w : Vec) (costs : List ℚ), numFeatures X = w.tail.length →
      trainLoop eta false false perms E k X y w costs =
        .ok (gdIter eta X y k w, costs ++ gdCosts eta X y k w)
  | 0, w, costs, _ => by simp [trainLoop, gdIter, gdCosts]
  | k + 1, w, costs, h => by
    have hstep : epochStep eta false X y w = .ok (gdEpoch eta X y w) := by
      simp [epochStep, h]
    have h' : numFeatures X = (gdEpoch eta X y w).1.tail.length := by
      rw [gdEpoch_tail_length]; exact h
    simp only [trainLoop, if_neg (Bool.false_ne_true), hstep]
    rw [trainLoop_gd_noshuffle eta perms E X y k (gdEpoch eta X y w).1 (costs ++ [(gdEpoch eta X y w).2]) h']
    simp [gdIter, gdCosts]

lemma gdCosts_length (eta : ℚ) (X : Mat) (y : Vec) :
    ∀ (k : ℕ) (w : Vec), (gdCosts eta X y k w).length = k
  | 0, _ => rfl
  | k + 1, w => by simp [gdCosts, gdCosts_length eta X y k]

lemma gdIter_tail_length (eta : ℚ) (X : Mat) (y : Vec) :
    ∀ (k : ℕ) (w : Vec), (gdIter eta X y k w).tail.length = w.tail.length
  | 0, _ => rfl
  | k + 1, w => by
    rw [gdIter, gdIter_tail_length eta X y k, gdEpoch_tail_length]

/-! ### The `sgd` training loop without shuffling -/

lemma sgdStep_length {eta : ℚ} {w xi : Vec} {yi : ℚ} (h : xi.length = w.tail.length) :
    (sgdStep eta w xi yi).length = 1 + w.tail.length := by
  simp [sgdStep, h, Nat.add_comm]

lemma sgdStep_tail_length {eta : ℚ} {w xi : Vec} {yi : ℚ}
    (h : xi.length = w.tail.length) :
    (sgdStep eta w xi yi).tail.length = w.tail.length := by
  simp [sgdStep, h]

/-- The per-sample fold of one `sgd` epoch, with the cost accumulator made
explicit. -/
lemma sgdFold_cost_shift (eta : ℚ) :
    ∀ (samples : List (Vec × ℚ)) (w : Vec) (a : ℚ),
      samples.foldl
          (fun acc p => (sgdStep eta acc.1 p.1 p.2, acc.2 + (p.2 - net_input acc.1 p.1) ^ 2 / 2))
          (w, a) =
        ((samples.foldl
            (fun acc p => (sgdStep eta acc.1 p.1 p.2, acc.2 + (p.2 - net_input acc.1 p.1) ^ 2 / 2))
            (w, 0)).1,
          a + (samples.foldl
            (fun acc p => (sgdStep eta acc.1 p.1 p.2, acc.2 + (p.2 - net_input acc.1 p.1) ^ 2 / 2))
            (w, 0)).2)
  | [], w, a => by simp
  | (xi, yi) :: rest, w, a => by
    simp only [List.foldl_cons]
    rw [sgdFold_cost_shift eta rest (sgdStep eta w xi yi) (a + (yi - net_input w xi) ^ 2 / 2),
      sgdFold_cost_shift eta rest (sgdStep eta w xi yi) (0 + (yi - net_input w xi) ^ 2 / 2)]
    simp [add_assoc]

/-- When every sample has the length of `w_[1:]`, the checked `sgd` epoch
succeeds and computes the pure fold. -/
lemma sgdEpochChk_ok (eta : ℚ) {n : ℕ} :
    ∀ (samples : List (Vec × ℚ)) (w : Vec) (cost : ℚ),
      (∀ p ∈ samples, p.1.length = n) → w.tail.length = n →
      sgdEpochChk eta samples w cost =
        .ok ((samples.foldl
            (fun acc p => (sgdStep eta acc.1 p.1 p.2, acc.2 + (p.2 - net_input acc.1 p.1) ^ 2 / 2))
            (w, 0)).1,
          cost + (samples.foldl
            (fun acc p => (sgdStep eta acc.1 p.1 p.2, acc.2 + (p.2 - net_input acc.1 p.1) ^ 2 / 2))
            (w, 0)).2)
  | [], w, cost, _, _ => by simp [sgdEpochChk]
  | (xi, yi) :: rest, w, cost, hs, hw => by
    have hxi : xi.length = n := hs (xi, yi) (List.mem_cons_self _ _)
    have hlen : xi.length = w.tail.length := by rw [hxi, hw]
    have hw' : (sgdStep eta w xi yi).tail.length = n := by
      rw [sgdStep_tail_length hlen, hw]
    rw [sgdEpochChk, if_pos hlen,
      sgdEpochChk_ok eta rest (sgdStep eta w xi yi) (cost + (yi - net_input w xi) ^ 2 / 2)
        (fun p hp => hs p (List.mem_cons_of_mem _ hp)) hw']
    simp only [List.foldl_cons, Except.ok.injEq, Prod.mk.injEq, true_and]
    rw [sgdFold_cost_shift eta rest (sgdStep eta w xi yi) (0 + (yi - net_input w xi) ^ 2 / 2)]
    simp [add_assoc]

lemma sgdEpochPure_eq_chk (eta : ℚ) (y : Vec) {X : Mat} {w : Vec} {n : ℕ}
    (hX : ∀ r ∈ X, r.length = n) (hw : w.tail.length = n) :
    epochStep eta true X y w = .ok (sgdEpochPure eta X y w) := by
  have hs : ∀ p ∈ X.zip y, p.1.length = n := fun p hp =>
    hX p.1 (List.of_mem_zip hp).1
  rw [epochStep, if_pos rfl, sgdEpochChk_ok eta (X.zip y) w 0 hs hw]
  simp [sgdEpochPure]

lemma sgdEpochPure_tail_length {eta : ℚ} {n : ℕ} :
    ∀ {samples : List (Vec × ℚ)} {w : Vec},
      (∀ p ∈ samples, p.1.length = n) → w.tail.length = n →
      ((samples.foldl
          (fun acc p => (sgdStep eta acc.1 p.1 p.2, acc.2 + (p.2 - net_input acc.1 p.1) ^ 2 / 2))
          (w, 0)).1).tail.length = n := by
  intro samples
  induction samples with
  | nil => intro w _ hw; simpa using hw
  | cons p rest ih =>
    intro w hs hw
    obtain ⟨xi, yi⟩ := p
    have hxi : xi.length = w.tail.length := by
      rw [hs (xi, yi) (List.mem_cons_self _ _), hw]
    simp only [List.foldl_cons]
    rw [sgdFold_cost_shift]
    exact ih (fun q hq => hs q (List.mem_cons_of_mem _ hq))
      (by rw [sgdStep_tail_length hxi, hw])

lemma trainLoop_sgd_noshuffle (eta : ℚ) (perms : ℕ → List ℕ) (E : ℕ) (X : Mat) (y : Vec)
    {n : ℕ} (hX : ∀ r ∈ X, r.length = n) :
    ∀ (k : ℕ) (w : Vec) (costs : List ℚ), w.tail.length = n →
      trainLoop eta true false perms E k X y w costs =
        .ok (sgdIter eta X y k w, costs ++ sgdCosts eta X y k w)
  | 0, w, costs, _ => by simp [trainLoop, sgdIter, sgdCosts]
  | k + 1, w, costs, hw => by
    have hstep := sgdEpochPure_eq_chk eta y hX hw
    have hw' : (sgdEpochPure eta X y w).1.tail.length = n :=
      sgdEpochPure_tail_length (fun p hp => hX p.1 (List.of_mem_zip hp).1) hw
    simp only [trainLoop, if_neg (Bool.false_ne_true), hstep]
    rw [trainLoop_sgd_noshuffle eta perms E X y hX k (sgdEpochPure eta X y w).1
      (costs ++ [(sgdEpochPure eta X y w).2]) hw']
    simp [sgdIter, sgdCosts]

lemma sgdCosts_length (eta : ℚ) (X : Mat) (y : Vec) :
    ∀ (k : ℕ) (w : Vec), (sgdCosts eta X y k w).length = k
  | 0, _ => rfl
  | k + 1, w => by simp [sgdCosts, sgdCosts_length eta X y k]

/-! ### Generic facts about the training loop -/

/-- On success, the loop appends exactly one cost per epoch. -/
lemma trainLoop_ok_costs_length (eta : ℚ) (useSgd doShuffle : Bool)
    (perms : ℕ → List ℕ) (E : ℕ) :
    ∀ (k : ℕ) (X : Mat) (y : Vec) (w : Vec) (costs : List ℚ) {w' : Vec} {costs' : List ℚ},
      trainLoop eta useSgd doShuffle perms E k X y w costs = .ok (w', costs') →
      costs'.length = costs.length + k
  | 0, X, y, w, costs, w', costs', h => by
    simp only [trainLoop, Except.ok.injEq, Prod.mk.injEq] at h
    simp [← h.2]
  | k + 1, X, y, w, costs, w', costs', h => by
    rw [trainLoop] at h
    split at h
    · exact absurd h (by simp)
    · have := trainLoop_ok_costs_length eta useSgd doShuffle perms E k _ _ _ _ h
      simpa [Nat.add_assoc, Nat.add_comm 1 k] using this

/-- The only error the iterative solvers raise is the dimension mismatch
from `np.dot`. -/
lemma sgdEpochChk_error_dim (eta : ℚ) :
    ∀ (samples : List (Vec × ℚ)) (w : Vec) (cost : ℚ) {e : FitErr},
      sgdEpochChk eta samples w cost = .error e → e = .dimMismatch
  | [], w, cost, e, h => by simp [sgdEpochChk] at h
  | (xi, yi) :: rest, w, cost, e, h => by
    rw [sgdEpochChk] at h
    split at h
    · exact sgdEpochChk_error_dim eta rest _ _ h
    · simpa using h.symm

lemma epochStep_error_dim {eta : ℚ} {useSgd : Bool} {X : Mat} {y : Vec} {w : Vec}
    {e : FitErr} (h : epochStep eta useSgd X y w = .error e) : e = .dimMismatch := by
  rw [epochStep] at h
  split at h
  · exact sgdEpochChk_error_dim eta _ _ _ h
  · split at h
    · simp at h
    · simpa using h.symm

lemma trainLoop_error_dim (eta : ℚ) (useSgd doShuffle : Bool)
    (perms : ℕ → List ℕ) (E : ℕ) :
    ∀ (k : ℕ) (X : Mat) (y : Vec) (w : Vec) (costs : List ℚ)
      {e : FitErr} {w' : Vec} {costs' : List ℚ},
      trainLoop eta useSgd doShuffle perms E k X y w costs = .error (e, w', costs') →
      e = .dimMismatch
  | 0, X, y, w, costs, e, w', costs', h => by simp [trainLoop] at h
  | k + 1, X, y, w, costs, e, w', costs', h => by
    rw [trainLoop] at h
    split at h
    · rename_i heq
      simp only [Except.error.injEq, Prod.mk.injEq] at h
      exact h.1 ▸ epochStep_error_dim heq
    · exact trainLoop_error_dim eta useSgd doShuffle perms E k _ _ _ _ h

/-- Shuffling with a genuine permutation of `range L` preserves the row
lengths, the row count and the target count. -/
lemma shuffle_rows_preserves {r : List ℕ} {X : Mat} {y : Vec} {n L : ℕ}
    (hr : r.Perm (List.range L)) (hX : ∀ row ∈ X, row.length = n)
    (hXL : X.length = L) (hyL : y.length = L) :
    (∀ row ∈ (shuffle_rows r X y).1, row.length = n) ∧
      (shuffle_rows r X y).1.length = L ∧ (shuffle_rows r X y).2.length = L := by
  refine ⟨?_, ?_, ?_⟩
  · intro row hrow
    simp only [shuffle_rows, List.mem_map] at hrow
    obtain ⟨i, hi, hrow⟩ := hrow
    have hiL : i < L := by
      have := hr.mem_iff.1 hi
      simpa using this
    have : X.getD i [] ∈ X := by
      rw [List.getD_eq_getElem X [] (by rw [hXL]; exact hiL)]
      exact List.getElem_mem _
    rw [← hrow]
    exact hX _ this
  · simp [shuffle_rows, hr.length_eq]
  · simp [shuffle_rows, hr.length_eq]

/-- The per-sample fold of an `sgd` epoch preserves a weight-vector length
of `1 + n` when every sample has length `n`. -/
lemma sgdFold_length {eta : ℚ} {n : ℕ} :
    ∀ (samples : List (Vec × ℚ)) (w : Vec),
      (∀ p ∈ samples, p.1.length = n) → w.tail.length = n → w.length = 1 + n →
      ((samples.foldl
          (fun acc p => (sgdStep eta acc.1 p.1 p.2, acc.2 + (p.2 - net_input acc.1 p.1) ^ 2 / 2))
          (w, 0)).1).length = 1 + n
  | [], w, _, _, hw => by simpa using hw
  | (xi, yi) :: rest, w, hs, htail, hw => by
    have hxi : xi.length = w.tail.length := by
      rw [hs (xi, yi) (List.mem_cons_self _ _), htail]
    simp only [List.foldl_cons]
    rw [sgdFold_cost_shift]
    exact sgdFold_length rest (sgdStep eta w xi yi)
      (fun q hq => hs q (List.mem_cons_of_mem _ hq))
      (by rw [sgdStep_tail_length hxi, htail])
      (by rw [sgdStep_length hxi, htail])

/-- A successful epoch of either iterative solver on nonempty data leaves a
weight vector of length `1 + n`. -/
lemma epochStep_ok_length {eta : ℚ} {useSgd : Bool} {X : Mat} {y : Vec} {w w' : Vec}
    {cost : ℚ} {n : ℕ} (hX : ∀ row ∈ X, row.length = n) (hXne : X ≠ [])
    (hyne : y ≠ []) (h : epochStep eta useSgd X y w = .ok (w', cost)) :
    w'.length = 1 + n := by
  have hnf : numFeatures X = n := by
    match X, hXne with
    | row :: rest, _ => exact hX row (List.mem_cons_self _ _)
  rw [epochStep] at h
  split at h
  · -- sgd epoch
    match X, y, hXne, hyne with
    | [], _, hne, _ => exact absurd rfl hne
    | _ :: _, [], _, hne => exact absurd rfl hne
    | x0 :: Xr, y0 :: yr, _, _ =>
      rw [List.zip_cons_cons, sgdEpochChk] at h
      split at h
      · rename_i hlen
        have hx0 : x0.length = n := hX x0 (List.mem_cons_self _ _)
        have hstep : (sgdStep eta w x0 y0).length = 1 + n := by
          rw [sgdStep_length hlen, ← hlen, hx0]
        have htail : (sgdStep eta w x0 y0).tail.length = n := by
          rw [sgdStep_tail_length hlen, ← hlen, hx0]
        have hrest : ∀ p ∈ (Xr.zip yr), p.1.length = n := fun p hp =>
          hX p.1 (List.mem_cons_of_mem _ (List.of_mem_zip hp).1)
        rw [sgdEpochChk_ok eta _ _ _ hrest htail] at h
        simp only [Except.ok.injEq, Prod.mk.injEq] at h
        rw [← h.1]
        exact sgdFold_length _ _ hrest htail hstep
      · simp at h
  · split at h
    · rename_i hdim
      simp only [Except.ok.injEq] at h
      have hfst : (gdEpoch eta X y w).1 = w' := by rw [h]
      rw [← hfst, gdEpoch_length, ← hdim, hnf]
    · simp at h

/-- On success with at least one epoch and valid permutations, the final
weight vector has length `1 + n`. -/
lemma trainLoop_ok_wlen (eta : ℚ) (useSgd doShuffle : Bool)
    (perms : ℕ → List ℕ) (E : ℕ) {n L : ℕ} (hL : 1 ≤ L)
    (hperm : doShuffle = true → ∀ t, (perms t).Perm (List.range L)) :
    ∀ (k : ℕ) (X : Mat) (y : Vec) (w : Vec) (costs : List ℚ) {w' : Vec} {costs' : List ℚ},
      1 ≤ k → (∀ row ∈ X, row.length = n) → X.length = L → y.length = L →
      trainLoop eta useSgd doShuffle perms E k X y w costs = .ok (w', costs') →
      w'.length = 1 + n
  | 0, X, y, w, costs, w', costs', hk, _, _, _, _ => absurd hk (by simp)
  | k + 1, X, y, w, costs, w', costs', _, hX, hXL, hyL, h => by
    rw [trainLoop] at h
    set p := if doShuffle then shuffle_rows (perms (E - (k + 1))) X y else (X, y) with hp
    have hpre : (∀ row ∈ p.1, row.length = n) ∧ p.1.length = L ∧ p.2.length = L := by
      rw [hp]
      cases doShuffle with
      | false => exact ⟨hX, hXL, hyL⟩
      | true =>
        exact shuffle_rows_preserves (hperm rfl (E - (k + 1))) hX hXL hyL
    have hXne : p.1 ≠ [] := by
      intro hnil
      rw [hnil] at hpre
      simp at hpre
      omega
    have hyne : p.2 ≠ [] := by
      intro hnil
      have := hpre.2.2
      rw [hnil] at this
      simp at this
      omega
    split at h
    · exact absurd h (by simp)
    · rename_i w1 cost heq
      cases Nat.eq_zero_or_pos k with
      | inl hk0 =>
        subst hk0
        simp only [trainLoop, Except.ok.injEq, Prod.mk.injEq] at h
        rw [← h.1]
        exact epochStep_ok_length hpre.1 hXne hyne heq
      | inr hkpos =>
        exact trainLoop_ok_wlen eta useSgd doShuffle perms E hL hperm k _ _ _ _
          hkpos hpre.1 hpre.2.1 hpre.2.2 h

/-! ### The normal-equation solver -/

lemma finRange_map_getD {d : ℕ} (f : Fin d → ℚ) (i : Fin d) :
    ((List.finRange d).map f).getD (i : ℕ) 0 = f i := by
  rw [List.getD_eq_getElem _ _ (by simpa using i.isLt)]
  simp

lemma normal_equation_sing {X : Mat} {y : Vec} (h : (gram X).det = 0) :
    normal_equation X y = .error .singularMatrix := by
  simp [normal_equation, h]

lemma normal_equation_ok {X : Mat} {y : Vec} (h : (gram X).det ≠ 0) :
    normal_equation X y =
      .ok ((List.finRange (1 + numFeatures X)).map fun i =>
        ∑ j, (gram X).det⁻¹ * (gram X).adjugate i j * xty X y j) := by
  simp [normal_equation, h]

lemma normal_equation_length {X : Mat} {y : Vec} {w : Vec}
    (h : normal_equation X y = .ok w) : w.length = 1 + numFeatures X := by
  rw [normal_equation] at h
  split at h
  · simp at h
  · simp only [Except.ok.injEq] at h
    rw [← h]
    simp

/-- The vector `_normal_equation` returns really solves the normal
equations: multiplying it by `Xb.T Xb` gives back `Xb.T y`, so it is
`(Xb.T Xb)⁻¹ (Xb.T y)`. -/
lemma normal_equation_solves {X : Mat} {y : Vec} {w : Vec}
    (hdet : (gram X).det ≠ 0) (h : normal_equation X y = .ok w) :
    (gram X).mulVec (fun i => w.getD (i : ℕ) 0) = xty X y := by
  rw [normal_equation_ok hdet] at h
  simp only [Except.ok.injEq] at h
  have hw : (fun i : Fin (1 + numFeatures X) => w.getD (i : ℕ) 0) =
      ((gram X).det⁻¹ • (gram X).adjugate).mulVec (xty X y) := by
    funext i
    rw [← h, finRange_map_getD]
    simp [Matrix.mulVec, Matrix.dotProduct, Matrix.smul_apply, smul_eq_mul, mul_assoc]
  rw [hw, Matrix.mulVec_mulVec, Matrix.mul_smul, Matrix.mul_adjugate, smul_smul,
    inv_mul_cancel₀ hdet, one_smul, Matrix.one_mulVec]

/-! ### Success and error classification of `fit` -/

lemma init_weights_length (z : Bool) (shape : ℕ) (us : ℕ → ℚ) :
    (init_weights z shape us).length = shape := by
  cases z <;> simp [init_weights]

lemma init_weights_tail_length (z : Bool) (n : ℕ) (us : ℕ → ℚ) :
    (init_weights z (1 + n) us).tail.length = n := by
  rw [List.length_tail, init_weights_length]
  omega

lemma w0Of_init {c : Config} {us : ℕ → ℚ} {m : Model} {X : Mat} :
    w0Of c us m X true = init_weights c.zero_init_weight (1 + numFeatures X) us := rfl

lemma normal_equation_error_sing {X : Mat} {y : Vec} {e : FitErr}
    (h : normal_equation X y = .error e) : e = .singularMatrix := by
  rw [normal_equation] at h
  split at h
  · exact (Except.error.inj h).symm
  · simp at h

lemma fit_ok_base {c : Config} {us : ℕ → ℚ} {perms : ℕ → List ℕ} {m : Model}
    {X : Mat} {y : Vec} {initw : Bool} {m' : Model}
    (h : fit c us perms m X y initw = .ok m') :
    labelsOK (npUnique y) = true ∧ m'.classes_ = npUnique y ∧ m'.thres_ = thresOf y := by
  cases hlab : labelsOK (npUnique y) with
  | false =>
    rw [fit_labelErr hlab] at h
    exact absurd h (by simp)
  | true =>
    refine ⟨rfl, ?_⟩
    cases hsol : c.solver with
    | gd =>
      rw [fit_gd_run hlab hsol] at h
      split at h
      · exact absurd h (by simp)
      · simp only [Except.ok.injEq] at h
        rw [← h]
        exact ⟨rfl, rfl⟩
    | sgd =>
      rw [fit_sgd_run hlab hsol] at h
      split at h
      · exact absurd h (by simp)
      · simp only [Except.ok.injEq] at h
        rw [← h]
        exact ⟨rfl, rfl⟩
    | normalEq =>
      rw [fit_neq_run hlab hsol] at h
      split at h
      · exact absurd h (by simp)
      · simp only [Except.ok.injEq] at h
        rw [← h]
        exact ⟨rfl, rfl⟩

lemma fit_labelErr_labelsOK {c : Config} {us : ℕ → ℚ} {perms : ℕ → List ℕ} {m : Model}
    {X : Mat} {y : Vec} {initw : Bool} {m' : Model}
    (h : fit c us perms m X y initw = .error (.labelDomain, m')) :
    labelsOK (npUnique y) = false := by
  cases hlab : labelsOK (npUnique y) with
  | false => rfl
  | true =>
    exfalso
    cases hsol : c.solver with
    | gd =>
      rw [fit_gd_run hlab hsol] at h
      split at h
      · rename_i heq
        simp only [Except.error.injEq, Prod.mk.injEq] at h
        have := trainLoop_error_dim _ _ _ _ _ _ _ _ _ _ heq
        rw [h.1] at this
        exact absurd this (by simp)
      · simp at h
    | sgd =>
      rw [fit_sgd_run hlab hsol] at h
      split at h
      · rename_i heq
        simp only [Except.error.injEq, Prod.mk.injEq] at h
        have := trainLoop_error_dim _ _ _ _ _ _ _ _ _ _ heq
        rw [h.1] at this
        exact absurd this (by simp)
      · simp at h
    | normalEq =>
      rw [fit_neq_run hlab hsol] at h
      split at h
      · rename_i heq
        simp only [Except.error.injEq, Prod.mk.injEq] at h
        have := normal_equation_error_sing heq
        rw [h.1] at this
        exact absurd this (by simp)
      · simp at h

lemma fit_neq_ok_w {c : Config} {us : ℕ → ℚ} {perms : ℕ → List ℕ} {m : Model}
    {X : Mat} {y : Vec} {initw : Bool} {m' : Model}
    (hsol : c.solver = .normalEq) (h : fit c us perms m X y initw = .ok m') :
    normal_equation X y = .ok m'.w_ := by
  have hlab := (fit_ok_base h).1
  rw [fit_neq_run hlab hsol] at h
  split at h
  · exact absurd h (by simp)
  · rename_i w heq
    simp only [Except.ok.injEq] at h
    rw [← h]
    exact heq

/-! ### Batch gradient descent is invariant under joint row shuffling -/

lemma map_getD_range {α : Type} (d : α) (l : List α) :
    (List.range l.length).map (fun i => l.getD i d) = l := by
  apply List.ext_getElem (by simp)
  intro i h1 h2
  simp only [List.getElem_map, List.getElem_range]
  exact List.getD_eq_getElem l d h2

lemma perm_map_getD {α : Type} (d : α) {r : List ℕ} {l : List α}
    (h : r.Perm (List.range l.length)) :
    (r.map fun i => l.getD i d).Perm l := by
  have h2 := h.map fun i => l.getD i d
  rwa [map_getD_range] at h2

/-- One `gd` epoch computes the same weight update and cost on data whose
rows have been permuted in unison: the batch gradient and the summed cost
do not depend on the sample order. -/
lemma gdEpoch_shuffle (eta : ℚ) {r : List ℕ} {X : Mat} {y : Vec} {L : ℕ}
    (hr : r.Perm (List.range L)) (hX : X.length = L) (hy : y.length = L) (w : Vec) :
    gdEpoch eta (r.map fun i => X.getD i []) (r.map fun i => y.getD i 0) w =
      gdEpoch eta X y w := by
  set E := List.zipWith (· - ·) y (X.map (net_input w)) with hE
  have hEL : E.length = L := by
    rw [hE, List.length_zipWith, List.length_map, hX, hy, Nat.min_self]
  have hmem : ∀ i ∈ r, i < L := by
    intro i hi
    simpa using hr.mem_iff.1 hi
  have herr : List.zipWith (· - ·) (r.map fun i => y.getD i 0)
      ((r.map fun i => X.getD i []).map (net_input w)) = r.map fun i => E.getD i 0 := by
    rw [List.map_map, List.zipWith_map (· - ·) _ _ r r, List.zipWith_same]
    apply List.map_congr_left
    intro i hi
    have hiL := hmem i hi
    have hiE : i < E.length := by rw [hEL]; exact hiL
    have hiy : i < y.length := by rw [hy]; exact hiL
    have hiX : i < X.length := by rw [hX]; exact hiL
    simp only [Function.comp_apply]
    rw [List.getD_eq_getElem E 0 hiE, List.getD_eq_getElem y 0 hiy,
      List.getD_eq_getElem X [] hiX]
    simp [hE, List.getElem_zipWith]
  have hpermE : (r.map fun i => E.getD i 0).Perm E :=
    perm_map_getD 0 (by rw [hEL]; exact hr)
  simp only [gdEpoch, herr]
  refine Prod.ext ?_ ?_
  · simp only
    rw [hpermE.sum_eq]
    congr 1
    apply List.map_congr_left
    intro j _
    congr 1
    -- the feature-j component of Xᵀ·errors is permutation invariant
    have hzip : List.zipWith (fun row e => row.getD j 0 * e)
        (r.map fun i => X.getD i []) (r.map fun i => E.getD i 0) =
        r.map fun i => (List.zipWith (fun row e => row.getD j 0 * e) X E).getD i 0 := by
      rw [List.zipWith_map (fun (row : List ℚ) (e : ℚ) => row.getD j 0 * e) _ _ r r,
        List.zipWith_same]
      apply List.map_congr_left
      intro i hi
      have hiL := hmem i hi
      have hiF : i < (List.zipWith (fun row e => row.getD j 0 * e) X E).length := by
        rw [List.length_zipWith, hX, hEL, Nat.min_self]
        exact hiL
      have hiE : i < E.length := by rw [hEL]; exact hiL
      have hiX : i < X.length := by rw [hX]; exact hiL
      rw [List.getD_eq_getElem _ 0 hiF, List.getD_eq_getElem E 0 hiE,
        List.getD_eq_getElem X [] hiX]
      simp [List.getElem_zipWith]
    rw [hzip]
    have : (r.map fun i =>
        (List.zipWith (fun row e => row.getD j 0 * e) X E).getD i 0).Perm
        (List.zipWith (fun row e => row.getD j 0 * e) X E) :=
      perm_map_getD 0 (by
        rw [List.length_zipWith, hX, hEL, Nat.min_self]
        exact hr)
    rw [this.sum_eq]
  · simp only
    rw [(hpermE.map fun e => e ^ 2).sum_eq]

lemma gdIter_shuffle (eta : ℚ) {r : List ℕ} {X : Mat} {y : Vec} {L : ℕ}
    (hr : r.Perm (List.range L)) (hX : X.length = L) (hy : y.length = L) :
    ∀ (k : ℕ) (w : Vec),
      gdIter eta (r.map fun i => X.getD i []) (r.map fun i => y.getD i 0) k w =
        gdIter eta X y k w
  | 0, _ => rfl
  | k + 1, w => by
    rw [gdIter, gdIter, gdEpoch_shuffle eta hr hX hy,
      gdIter_shuffle eta hr hX hy k]

lemma gdCosts_shuffle (eta : ℚ) {r : List ℕ} {X : Mat} {y : Vec} {L : ℕ}
    (hr : r.Perm (List.range L)) (hX : X.length = L) (hy : y.length = L) :
    ∀ (k : ℕ) (w : Vec),
      gdCosts eta (r.map fun i => X.getD i []) (r.map fun i => y.getD i 0) k w =
        gdCosts eta X y k w
  | 0, _ => rfl
  | k + 1, w => by
    rw [gdCosts, gdCosts, gdEpoch_shuffle eta hr hX hy,
      gdCosts_shuffle eta hr hX hy k]

/-- The `gd` training loop — with or without shuffling by genuine
permutations — computes exactly the iterates of `gdEpoch` on the original
data and appends their costs in order. -/
lemma trainLoop_gd_general (eta : ℚ) (doShuffle : Bool) (perms : ℕ → List ℕ) (E : ℕ)
    {n L : ℕ} (hL : 1 ≤ L)
    (hperm : doShuffle = true → ∀ t, (perms t).Perm (List.range L)) :
    ∀ (k : ℕ) (X : Mat) (y : Vec) (w : Vec) (costs : List ℚ),
      (∀ row ∈ X, row.length = n) → X.length = L → y.length = L →
      numFeatures X = w.tail.length →
      trainLoop eta false doShuffle perms E k X y w costs =
        .ok (gdIter eta X y k w, costs ++ gdCosts eta X y k w)
  | 0, X, y, w, costs, _, _, _, _ => by simp [trainLoop, gdIter, gdCosts]
  | k + 1, X, y, w, costs, hrect, hXL, hyL, hchk => by
    cases doShuffle with
    | false =>
      have hstep : epochStep eta false X y w = .ok (gdEpoch eta X y w) := by
        simp [epochStep, hchk]
      have hchk' : numFeatures X = (gdEpoch eta X y w).1.tail.length := by
        rw [gdEpoch_tail_length]; exact hchk
      simp only [trainLoop, if_neg (Bool.false_ne_true), hstep]
      rw [trainLoop_gd_general eta false perms E hL hperm k X y (gdEpoch eta X y w).1
        (costs ++ [(gdEpoch eta X y w).2]) hrect hXL hyL hchk']
      simp [gdIter, gdCosts]
    | true =>
      have hr := hperm rfl (E - (k + 1))
      have hXne : X ≠ [] := by
        intro hnil
        rw [hnil] at hXL
        simp at hXL
        omega
      have hnf : numFeatures X = n := by
        match X, hXne with
        | row :: _, _ => exact hrect row (List.mem_cons_self _ _)
      obtain ⟨hrect1, hX1L, hy1L⟩ :=
        shuffle_rows_preserves hr hrect hXL hyL
      have hX1ne : (shuffle_rows (perms (E - (k + 1))) X y).1 ≠ [] := by
        intro hnil
        rw [hnil] at hX1L
        simp at hX1L
        omega
      have hnf1 : numFeatures (shuffle_rows (perms (E - (k + 1))) X y).1 = n := by
        match (shuffle_rows (perms (E - (k + 1))) X y).1, hX1ne, hrect1 with
        | row :: _, _, hrect1 => exact hrect1 row (List.mem_cons_self _ _)
      have hchk1 : numFeatures (shuffle_rows (perms (E - (k + 1))) X y).1 =
          w.tail.length := by
        rw [hnf1, ← hnf]
        exact hchk
      have hepoch : gdEpoch eta (shuffle_rows (perms (E - (k + 1))) X y).1
          (shuffle_rows (perms (E - (k + 1))) X y).2 w = gdEpoch eta X y w :=
        gdEpoch_shuffle eta hr hXL hyL w
      have hstep : epochStep eta false (shuffle_rows (perms (E - (k + 1))) X y).1
          (shuffle_rows (perms (E - (k + 1))) X y).2 w = .ok (gdEpoch eta X y w) := by
        rw [epochStep, if_neg (Bool.false_ne_true), if_pos hchk1, hepoch]
      have hchk2 : numFeatures (shuffle_rows (perms (E - (k + 1))) X y).1 =
          (gdEpoch eta X y w).1.tail.length := by
        rw [gdEpoch_tail_length]
        exact hchk1
      simp only [trainLoop, eq_self_iff_true, if_true, hstep]
      rw [trainLoop_gd_general eta true perms E hL hperm k
        (shuffle_rows (perms (E - (k + 1))) X y).1
        (shuffle_rows (perms (E - (k + 1))) X y).2
        (gdEpoch eta X y w).1 (costs ++ [(gdEpoch eta X y w).2])
        hrect1 hX1L hy1L hchk2]
      rw [shuffle_rows] at hX1L hy1L ⊢
      rw [gdIter_shuffle eta hr hXL hyL k, gdCosts_shuffle eta hr hXL hyL k]
      simp [gdIter, gdCosts]

/-! ### Claim theorems -/

/-- C5: `fit` raises the label-domain error if and only if the set of
distinct values of `targets` is neither `{0, 1}` nor `{-1, 1}`; any other
set, of any size, is rejected, and those two sets are accepted. -/
theorem fit_label_domain_error_iff (c : Config) (us : ℕ → ℚ) (perms : ℕ → List ℕ)
    (m : Model) (X : Mat) (y : Vec) (initw : Bool) :
    (∃ m', fit c us perms m X y initw = .error (.labelDomain, m')) ↔
      ¬(y.toFinset = ({0, 1} : Finset ℚ) ∨ y.toFinset = ({-1, 1} : Finset ℚ)) := by
  rw [← labelsOK_npUnique_iff, Bool.not_eq_true]
  constructor
  · rintro ⟨m', hm'⟩
    exact fit_labelErr_labelsOK hm'
  · intro hlab
    exact ⟨_, fit_labelErr hlab⟩

/-- C5 witness: targets `[1, 2]` are rejected with the label-domain error
while targets `[0, 1]` are not. -/
theorem fit_label_domain_error_iff_witness :
    (∃ m', fit ⟨1/10, 1, Solver.gd, false, true⟩ (fun _ => 0) (fun _ => [])
        ⟨[], 0, [], []⟩ [[0], [1]] [1, 2] true = .error (.labelDomain, m')) ∧
      ¬(∃ m', fit ⟨1/10, 1, Solver.gd, false, true⟩ (fun _ => 0) (fun _ => [])
        ⟨[], 0, [], []⟩ [[0], [1]] [0, 1] true = .error (.labelDomain, m')) :=
  ⟨(fit_label_domain_error_iff _ _ _ _ _ _ _).2 (by decide),
   fun hc => ((fit_label_domain_error_iff _ _ _ _ _ _ _).1 hc) (by decide)⟩

/-- C8 counterexample: a `fit` call that raises the label-domain error has
already overwritten `classes_` (set to `np.unique(y)` on line 78, before
the validation on line 79) — the attribute learned by the prior fit, here
`[0, 1]`, does not hold its previous value after the failing call. -/
theorem fit_label_error_mutation_cex :
    fit ⟨1/100, 3, Solver.sgd, false, true⟩ (fun _ => 0) (fun _ => [])
        ⟨[0, 1], 1/2, [2, 3], [7]⟩ [[1], [2]] [1, 2] true =
      .error (.labelDomain, ⟨[1, 2], 1/2, [2, 3], [7]⟩) ∧
      (⟨[1, 2], 1/2, [2, 3], [7]⟩ : Model).classes_ ≠
        (⟨[0, 1], 1/2, [2, 3], [7]⟩ : Model).classes_ :=
  ⟨by decide, by decide⟩

/-- C8 (amended): when `fit` raises the label-domain error, the weight
vector, the cost history and the threshold hold exactly their prior
values, but `classes_` has already been overwritten with the sorted
distinct values of the offending targets. -/
theorem fit_label_error_state (c : Config) (us : ℕ → ℚ) (perms : ℕ → List ℕ)
    (m : Model) (X : Mat) (y : Vec) (initw : Bool) (m' : Model)
    (h : fit c us perms m X y initw = .error (.labelDomain, m')) :
    m'.w_ = m.w_ ∧ m'.cost_ = m.cost_ ∧ m'.thres_ = m.thres_ ∧
      m'.classes_ = npUnique y := by
  have hlab := fit_labelErr_labelsOK h
  rw [fit_labelErr hlab] at h
  simp only [Except.error.injEq, Prod.mk.injEq, true_and] at h
  rw [← h]
  exact ⟨rfl, rfl, rfl, rfl⟩

/-- C8 witness: a concrete failing call preserving `w_`, `cost_`, `thres_`
and overwriting `classes_`. -/
theorem fit_label_error_state_witness :
    fit ⟨1/100, 3, Solver.sgd, false, true⟩ (fun _ => 0) (fun _ => [])
        ⟨[-1, 1], 0, [5], [9]⟩ [[1]] [0, 1, 2] true =
      .error (.labelDomain, ⟨[0, 1, 2], 0, [5], [9]⟩) ∧
      ((⟨[0, 1, 2], 0, [5], [9]⟩ : Model).w_ = (⟨[-1, 1], 0, [5], [9]⟩ : Model).w_ ∧
        (⟨[0, 1, 2], 0, [5], [9]⟩ : Model).cost_ = (⟨[-1, 1], 0, [5], [9]⟩ : Model).cost_ ∧
        (⟨[0, 1, 2], 0, [5], [9]⟩ : Model).thres_ = (⟨[-1, 1], 0, [5], [9]⟩ : Model).thres_ ∧
        (⟨[0, 1, 2], 0, [5], [9]⟩ : Model).classes_ = npUnique [0, 1, 2]) :=
  ⟨by decide,
   fit_label_error_state ⟨1/100, 3, Solver.sgd, false, true⟩ (fun _ => 0) (fun _ => [])
     ⟨[-1, 1], 0, [5], [9]⟩ [[1]] [0, 1, 2] true ⟨[0, 1, 2], 0, [5], [9]⟩ (by decide)⟩

/-- C7 counterexample: the cost history is not reset at the start of every
`fit` call — a call that fails label validation leaves the prior `cost_`
(here `[5]`) in place, because the reset on line 93 runs only after the
validation. -/
theorem fit_cost_reset_cex :
    fit ⟨1/10, 2, Solver.gd, false, true⟩ (fun _ => 0) (fun _ => [])
        ⟨[0, 1], 1/2, [3, 4], [5]⟩ [[0], [1]] [1, 2] true =
      .error (.labelDomain, ⟨[1, 2], 1/2, [3, 4], [5]⟩) ∧
      (⟨[1, 2], 1/2, [3, 4], [5]⟩ : Model).cost_ ≠ [] :=
  ⟨by decide, by decide⟩

/-- C7 (amended): on every `fit` call that passes label validation the
cost history is reset to empty regardless of `reinitialize` (the result
never depends on the prior `cost_`), and after a successful fit its length
equals the epoch count for the iterative solvers and it is empty for the
normal-equation solver. -/
theorem fit_cost_history (c : Config) (us : ℕ → ℚ) (perms : ℕ → List ℕ)
    (m : Model) (X : Mat) (y : Vec) (initw : Bool) :
    (∀ m', fit c us perms m X y initw = .ok m' →
      (c.solver = .normalEq → m'.cost_ = []) ∧
      (c.solver ≠ .normalEq → m'.cost_.length = c.epochs)) ∧
    (labelsOK (npUnique y) = true → ∀ cs : List ℚ,
      fit c us perms { m with cost_ := cs } X y initw = fit c us perms m X y initw) := by
  constructor
  · intro m' h
    have hlab := (fit_ok_base h).1
    cases hsol : c.solver with
    | normalEq =>
      refine ⟨fun _ => ?_, fun hne => absurd rfl hne⟩
      rw [fit_neq_run hlab hsol] at h
      split at h
      · exact absurd h (by simp)
      · simp only [Except.ok.injEq] at h
        rw [← h]
    | gd =>
      refine ⟨fun hc => Solver.noConfusion hc, fun _ => ?_⟩
      rw [fit_gd_run hlab hsol] at h
      split at h
      · exact absurd h (by simp)
      · rename_i w1 costs1 heq
        simp only [Except.ok.injEq] at h
        rw [← h]
        simpa using trainLoop_ok_costs_length _ _ _ _ _ _ _ _ _ _ heq
    | sgd =>
      refine ⟨fun hc => Solver.noConfusion hc, fun _ => ?_⟩
      rw [fit_sgd_run hlab hsol] at h
      split at h
      · exact absurd h (by simp)
      · rename_i w1 costs1 heq
        simp only [Except.ok.injEq] at h
        rw [← h]
        simpa using trainLoop_ok_costs_length _ _ _ _ _ _ _ _ _ _ heq
  · intro hlab cs
    cases hsol : c.solver with
    | normalEq =>
      simp only [fit_neq_run hlab hsol]
      rfl
    | gd =>
      simp only [fit_gd_run hlab hsol]
      rfl
    | sgd =>
      simp only [fit_sgd_run hlab hsol]
      rfl

/-- C7 witness: a successful two-epoch `gd` fit records two costs, and the
result does not depend on the cost history held before the call. -/
theorem fit_cost_history_witness :
    (⟨[0, 1], 1/2, [17/100, 9/50], [1/2, 13/40]⟩ : Model).cost_.length =
      (⟨1/10, 2, Solver.gd, false, true⟩ : Config).epochs ∧
    fit ⟨1/10, 2, Solver.gd, false, true⟩ (fun _ => 0) (fun _ => [])
        { (⟨[9], 9, [9], [9]⟩ : Model) with cost_ := [4] } [[0], [1]] [0, 1] true =
      fit ⟨1/10, 2, Solver.gd, false, true⟩ (fun _ => 0) (fun _ => [])
        ⟨[9], 9, [9], [9]⟩ [[0], [1]] [0, 1] true :=
  ⟨((fit_cost_history ⟨1/10, 2, Solver.gd, false, true⟩ (fun _ => 0) (fun _ => [])
        ⟨[], 0, [], []⟩ [[0], [1]] [0, 1] true).1 _ (by decide)).2 (by decide),
   (fit_cost_history ⟨1/10, 2, Solver.gd, false, true⟩ (fun _ => 0) (fun _ => [])
        ⟨[9], 9, [9], [9]⟩ [[0], [1]] [0, 1] true).2 (by decide) [4]⟩

/-- C9: every successful `fit` — any solver, either value of
`reinitialize` — leaves a weight vector of length `1 + n_features`, under
the input contract (rectangular features aligned with the targets, a
positive epoch count, and genuine permutations drawn when shuffling). -/
theorem fit_ok_weight_length (c : Config) (us : ℕ → ℚ) (perms : ℕ → List ℕ)
    (m : Model) (X : Mat) (y : Vec) (initw : Bool) (m' : Model) {n : ℕ}
    (hrect : ∀ r ∈ X, r.length = n)
    (hXy : y.length = X.length)
    (hep : 1 ≤ c.epochs)
    (hperm : c.shuffle = true → ∀ t, (perms t).Perm (List.range y.length))
    (h : fit c us perms m X y initw = .ok m') :
    m'.w_.length = 1 + numFeatures X := by
  obtain ⟨hlab, -, -⟩ := fit_ok_base h
  have hy : y ≠ [] := by
    intro hnil
    rw [hnil] at hlab
    exact absurd hlab (by decide)
  have hL : 1 ≤ y.length := List.length_pos.2 hy
  have hXne : X ≠ [] := by
    intro hnil
    rw [hnil] at hXy
    simp only [List.length_nil] at hXy
    exact hy (List.length_eq_zero.1 hXy)
  have hnf : numFeatures X = n := by
    match X, hXne with
    | r :: _, _ => exact hrect r (List.mem_cons_self _ _)
  cases hsol : c.solver with
  | normalEq =>
    rw [fit_neq_run hlab hsol] at h
    split at h
    · exact absurd h (by simp)
    · rename_i w heq
      simp only [Except.ok.injEq] at h
      rw [← h]
      exact normal_equation_length heq
  | gd =>
    rw [fit_gd_run hlab hsol] at h
    split at h
    · exact absurd h (by simp)
    · rename_i w1 costs1 heq
      simp only [Except.ok.injEq] at h
      rw [← h]
      have := trainLoop_ok_wlen c.eta false c.shuffle perms c.epochs hL hperm
        c.epochs X y (w0Of c us m X initw) [] hep hrect hXy.symm rfl heq
      rw [hnf]
      exact this
  | sgd =>
    rw [fit_sgd_run hlab hsol] at h
    split at h
    · exact absurd h (by simp)
    · rename_i w1 costs1 heq
      simp only [Except.ok.injEq] at h
      rw [← h]
      have := trainLoop_ok_wlen c.eta true c.shuffle perms c.epochs hL hperm
        c.epochs X y (w0Of c us m X initw) [] hep hrect hXy.symm rfl heq
      rw [hnf]
      exact this

/-- C9 witness: a concrete successful `sgd` fit on one feature leaves a
weight vector of length `2`. -/
theorem fit_ok_weight_length_witness :
    (⟨[0, 1], 1/2, [171/1000, 181/1000], [1/2, 6661/20000]⟩ : Model).w_.length =
      1 + numFeatures [[0], [1]] :=
  fit_ok_weight_length ⟨1/10, 2, Solver.sgd, false, true⟩ (fun _ => 0) (fun _ => [])
    ⟨[], 0, [], []⟩ [[0], [1]] [0, 1] true
    ⟨[0, 1], 1/2, [171/1000, 181/1000], [1/2, 6661/20000]⟩ (n := 1)
    (by decide) (by decide) (by decide) (fun hc => Bool.noConfusion hc) (by decide)

/-- C1: after any successful `fit`, the stored label pair is the sorted
pair of distinct training labels (so index 1 holds the larger label), the
threshold is `0.0` when the smaller label is `-1` and `0.5` otherwise, and
`predict` returns per row the larger label when `net_input(row) ≥ thres_`
and the smaller label otherwise — in particular only labels present in the
training targets. -/
theorem predict_after_fit (c : Config) (us : ℕ → ℚ) (perms : ℕ → List ℕ)
    (m : Model) (X : Mat) (y : Vec) (initw : Bool) (m' : Model) (Z : Mat)
    (h : fit c us perms m X y initw = .ok m') :
    m'.classes_.length = 2 ∧
    m'.classes_.getD 0 0 < m'.classes_.getD 1 0 ∧
    m'.thres_ = (if m'.classes_.getD 0 0 = -1 then 0 else 1 / 2) ∧
    predict m' Z = Z.map (fun z =>
      if m'.thres_ ≤ net_input m'.w_ z then m'.classes_.getD 1 0
      else m'.classes_.getD 0 0) ∧
    (∀ v ∈ predict m' Z,
      (v = m'.classes_.getD 0 0 ∨ v = m'.classes_.getD 1 0) ∧ v ∈ y) := by
  obtain ⟨hlab, hcls, hthr⟩ := fit_ok_base h
  obtain ⟨hlen, hlo, hhi⟩ := labelsOK_iff.1 hlab
  have h0lt : 0 < (npUnique y).length := by rw [hlen]; norm_num
  have h1lt : 1 < (npUnique y).length := by rw [hlen]; norm_num
  have ha : (npUnique y).getD 0 0 ∈ y := mem_npUnique (by
    rw [List.getD_eq_getElem _ _ h0lt]
    exact List.getElem_mem _)
  have hb : (npUnique y).getD 1 0 ∈ y := mem_npUnique (by
    rw [List.getD_eq_getElem _ _ h1lt]
    exact List.getElem_mem _)
  refine ⟨by rw [hcls]; exact hlen, ?_, ?_, rfl, ?_⟩
  · rw [hcls, hhi]
    rcases hlo with h0 | h0 <;> rw [h0] <;> norm_num
  · rw [hcls, hthr, thresOf]
  · intro v hv
    rw [predict, List.mem_map] at hv
    obtain ⟨z, _, hz⟩ := hv
    rw [← hz]
    split
    · exact ⟨Or.inr rfl, by rw [hcls]; exact hb⟩
    · exact ⟨Or.inl rfl, by rw [hcls]; exact ha⟩

/-- C1 witness: the classifier fitted on targets `{0, 1}` predicts only
the training labels, with threshold `0.5`. -/
theorem predict_after_fit_witness :
    (⟨[0, 1], 1/2, [17/100, 9/50], [1/2, 13/40]⟩ : Model).classes_.length = 2 ∧
    (⟨[0, 1], 1/2, [17/100, 9/50], [1/2, 13/40]⟩ : Model).classes_.getD 0 0 <
      (⟨[0, 1], 1/2, [17/100, 9/50], [1/2, 13/40]⟩ : Model).classes_.getD 1 0 ∧
    (⟨[0, 1], 1/2, [17/100, 9/50], [1/2, 13/40]⟩ : Model).thres_ =
      (if (⟨[0, 1], 1/2, [17/100, 9/50], [1/2, 13/40]⟩ : Model).classes_.getD 0 0 = -1
        then 0 else 1 / 2) ∧
    predict ⟨[0, 1], 1/2, [17/100, 9/50], [1/2, 13/40]⟩ [[0], [4]] =
      ([[0], [4]] : Mat).map (fun z =>
        if (⟨[0, 1], 1/2, [17/100, 9/50], [1/2, 13/40]⟩ : Model).thres_ ≤
            net_input (⟨[0, 1], 1/2, [17/100, 9/50], [1/2, 13/40]⟩ : Model).w_ z
        then (⟨[0, 1], 1/2, [17/100, 9/50], [1/2, 13/40]⟩ : Model).classes_.getD 1 0
        else (⟨[0, 1], 1/2, [17/100, 9/50], [1/2, 13/40]⟩ : Model).classes_.getD 0 0) ∧
    (∀ v ∈ predict ⟨[0, 1], 1/2, [17/100, 9/50], [1/2, 13/40]⟩ [[0], [4]],
      (v = (⟨[0, 1], 1/2, [17/100, 9/50], [1/2, 13/40]⟩ : Model).classes_.getD 0 0 ∨
        v = (⟨[0, 1], 1/2, [17/100, 9/50], [1/2, 13/40]⟩ : Model).classes_.getD 1 0) ∧
      v ∈ [0, 1]) :=
  predict_after_fit ⟨1/10, 2, Solver.gd, false, true⟩ (fun _ => 0) (fun _ => [])
    ⟨[], 0, [], []⟩ [[0], [1]] [0, 1] true
    ⟨[0, 1], 1/2, [17/100, 9/50], [1/2, 13/40]⟩ [[0], [4]] (by decide)

/-- C2: with the `gd` solver (no shuffling), `fit` performs exactly
`epochs` iterations of the batch epoch `gdEpoch` — which computes all net
inputs with the weights as of the epoch start, sets
`errors = y - net_input`, adds `eta * Xᵀ·errors` to the feature weights
and `eta * errors.sum` to the bias — appending each epoch's cost
`(errors²).sum / 2` to the history in order. -/
theorem fit_gd_epoch_iteration (c : Config) (us : ℕ → ℚ) (perms : ℕ → List ℕ)
    (m : Model) (X : Mat) (y : Vec)
    (hsol : c.solver = .gd) (hlab : labelsOK (npUnique y) = true)
    (hrect : ∀ row ∈ X, row.length = numFeatures X)
    (hXy : y.length = X.length)
    (hperm : c.shuffle = true → ∀ t, (perms t).Perm (List.range y.length)) :
    ∃ m', fit c us perms m X y true = .ok m' ∧
      m'.w_ = gdIter c.eta X y c.epochs
        (init_weights c.zero_init_weight (1 + numFeatures X) us) ∧
      m'.cost_ = gdCosts c.eta X y c.epochs
        (init_weights c.zero_init_weight (1 + numFeatures X) us) ∧
      m'.cost_.length = c.epochs := by
  have hy : y ≠ [] := by
    intro hnil
    rw [hnil] at hlab
    exact absurd hlab (by decide)
  have hL : 1 ≤ y.length := List.length_pos.2 hy
  rw [fit_gd_run hlab hsol, w0Of_init]
  rw [trainLoop_gd_general c.eta c.shuffle perms c.epochs hL hperm c.epochs X y _ []
    hrect hXy.symm rfl (init_weights_tail_length _ _ _).symm]
  exact ⟨_, rfl, rfl, rfl, by
    simp [gdCosts_length]⟩

/-- C2 witness: two `gd` epochs on a concrete dataset. -/
theorem fit_gd_epoch_iteration_witness :
    ∃ m', fit ⟨1/10, 2, Solver.gd, false, true⟩ (fun _ => 0) (fun _ => [])
        ⟨[], 0, [], []⟩ [[0], [1]] [0, 1] true = .ok m' ∧
      m'.w_ = gdIter (1/10) [[0], [1]] [0, 1] 2
        (init_weights true (1 + numFeatures [[0], [1]]) (fun _ => 0)) ∧
      m'.cost_ = gdCosts (1/10) [[0], [1]] [0, 1] 2
        (init_weights true (1 + numFeatures [[0], [1]]) (fun _ => 0)) ∧
      m'.cost_.length = 2 :=
  fit_gd_epoch_iteration ⟨1/10, 2, Solver.gd, false, true⟩ (fun _ => 0) (fun _ => [])
    ⟨[], 0, [], []⟩ [[0], [1]] [0, 1] rfl (by decide) (by decide) (by decide)
    (fun hc => Bool.noConfusion hc)

/-- C3: with the `sgd` solver (no shuffling), `fit` performs exactly
`epochs` iterations of the per-sample fold `sgdEpochPure`: samples are
processed one at a time in order, each per-sample error is computed with
the current partially updated weights and `eta * xi * error` is applied to
the feature weights (and `eta * error` to the bias) immediately, while the
epoch cost accumulates `error² / 2` per sample. -/
theorem fit_sgd_epoch_iteration (c : Config) (us : ℕ → ℚ) (perms : ℕ → List ℕ)
    (m : Model) (X : Mat) (y : Vec)
    (hsol : c.solver = .sgd) (hsh : c.shuffle = false)
    (hlab : labelsOK (npUnique y) = true)
    (hrect : ∀ r ∈ X, r.length = numFeatures X) :
    ∃ m', fit c us perms m X y true = .ok m' ∧
      m'.w_ = sgdIter c.eta X y c.epochs
        (init_weights c.zero_init_weight (1 + numFeatures X) us) ∧
      m'.cost_ = sgdCosts c.eta X y c.epochs
        (init_weights c.zero_init_weight (1 + numFeatures X) us) ∧
      m'.cost_.length = c.epochs := by
  rw [fit_sgd_run hlab hsol, hsh, w0Of_init]
  rw [trainLoop_sgd_noshuffle c.eta perms c.epochs X y hrect c.epochs _ []
    (init_weights_tail_length _ _ _)]
  exact ⟨_, rfl, rfl, rfl, by
    simp [sgdCosts_length]⟩

/-- C3 witness: two `sgd` epochs on a concrete dataset. -/
theorem fit_sgd_epoch_iteration_witness :
    ∃ m', fit ⟨1/10, 2, Solver.sgd, false, true⟩ (fun _ => 0) (fun _ => [])
        ⟨[], 0, [], []⟩ [[0], [1]] [0, 1] true = .ok m' ∧
      m'.w_ = sgdIter (1/10) [[0], [1]] [0, 1] 2
        (init_weights true (1 + numFeatures [[0], [1]]) (fun _ => 0)) ∧
      m'.cost_ = sgdCosts (1/10) [[0], [1]] [0, 1] 2
        (init_weights true (1 + numFeatures [[0], [1]]) (fun _ => 0)) ∧
      m'.cost_.length = 2 :=
  fit_sgd_epoch_iteration ⟨1/10, 2, Solver.sgd, false, true⟩ (fun _ => 0) (fun _ => [])
    ⟨[], 0, [], []⟩ [[0], [1]] [0, 1] rfl rfl (by decide) (by decide)

/-- C4: with the normal-equation solver on validly labeled data, `fit`
succeeds exactly when `XbᵀXb` is invertible, and then stores the weight
vector `(XbᵀXb)⁻¹ Xbᵀy` (characterised by `XbᵀXb · w = Xbᵀy`, entry 0
being the bias) with no cost-history entries and no dependence on the
epoch count; when `XbᵀXb` is singular it fails with the singular-matrix
error and the solve leaves the initialized weights untouched. -/
theorem fit_normal_equation_spec (c : Config) (us : ℕ → ℚ) (perms : ℕ → List ℕ)
    (m : Model) (X : Mat) (y : Vec) (initw : Bool)
    (hsol : c.solver = .normalEq) (hlab : labelsOK (npUnique y) = true) :
    ((gram X).det ≠ 0 →
      ∃ m', fit c us perms m X y initw = .ok m' ∧
        m'.cost_ = [] ∧
        m'.w_.length = 1 + numFeatures X ∧
        (gram X).mulVec (fun i => m'.w_.getD (i : ℕ) 0) = xty X y) ∧
    ((gram X).det = 0 →
      fit c us perms m X y initw =
        .error (.singularMatrix, ⟨npUnique y, thresOf y, w0Of c us m X initw, []⟩)) ∧
    (∀ e : ℕ, fit { c with epochs := e } us perms m X y initw =
      fit c us perms m X y initw) := by
  refine ⟨?_, ?_, ?_⟩
  · intro hdet
    have hne := normal_equation_ok (y := y) hdet
    rw [fit_neq_run hlab hsol, hne]
    exact ⟨_, rfl, rfl, normal_equation_length hne, normal_equation_solves hdet hne⟩
  · intro hdet
    rw [fit_neq_run hlab hsol, normal_equation_sing hdet]
  · intro e
    have hs : ({ c with epochs := e } : Config).solver = .normalEq := hsol
    rw [fit_neq_run hlab hs, fit_neq_run hlab hsol]
    rfl

/-- C4 witness: a nonsingular concrete instance. -/
theorem fit_normal_equation_spec_witness :
    (gram [[0], [1]]).det ≠ 0 ∧
    ∃ m', fit ⟨1/10, 5, Solver.normalEq, false, true⟩ (fun _ => 0) (fun _ => [])
        ⟨[], 0, [], []⟩ [[0], [1]] [0, 1] true = .ok m' ∧
      m'.cost_ = [] ∧
      m'.w_.length = 1 + numFeatures [[0], [1]] ∧
      (gram [[0], [1]]).mulVec (fun i => m'.w_.getD (i : ℕ) 0) = xty [[0], [1]] [0, 1] :=
  ⟨by decide,
   (fit_normal_equation_spec ⟨1/10, 5, Solver.normalEq, false, true⟩ (fun _ => 0)
     (fun _ => []) ⟨[], 0, [], []⟩ [[0], [1]] [0, 1] true rfl (by decide)).1 (by decide)⟩

/-- C6: the weight vector `fit` allocates with `reinitialize = true` has
length `1 + n_features`; with the zero-init flag it is exactly all zeros,
and otherwise each entry is `0.2 * u - 0.5` for a uniform draw
`u ∈ [0, 1)`, hence lies in `[-0.5, -0.3)`. -/
theorem init_weights_spec (z : Bool) (n : ℕ) (us : ℕ → ℚ) :
    (init_weights z (1 + n) us).length = 1 + n ∧
    (z = true → init_weights z (1 + n) us = List.replicate (1 + n) 0) ∧
    (z = false →
      init_weights z (1 + n) us = (List.range (1 + n)).map fun i => 0.2 * us i - 0.5) ∧
    ((∀ i, 0 ≤ us i ∧ us i < 1) →
      ∀ w ∈ init_weights false (1 + n) us, -(1/2) ≤ w ∧ w < -(3/10)) ∧
    (∀ (c : Config) (perms : ℕ → List ℕ) (m : Model) (X : Mat) (y : Vec),
      c.solver = .gd → c.epochs = 0 → labelsOK (npUnique y) = true →
      numFeatures X = n →
      fit c us perms m X y true =
        .ok ⟨npUnique y, thresOf y, init_weights c.zero_init_weight (1 + n) us, []⟩) := by
  refine ⟨init_weights_length _ _ _,
    fun hz => by rw [hz, init_weights, if_pos rfl],
    fun hz => by rw [hz, init_weights, if_neg (Bool.false_ne_true)],
    ?_, ?_⟩
  · intro hus w hw
    rw [init_weights, if_neg (Bool.false_ne_true)] at hw
    simp only [List.mem_map, List.mem_range] at hw
    obtain ⟨i, _, hwi⟩ := hw
    obtain ⟨h0, h1⟩ := hus i
    constructor
    · rw [← hwi]
      nlinarith
    · rw [← hwi]
      nlinarith
  · intro c perms m X y hsol hep hlab hn
    rw [fit_gd_run hlab hsol, hep, w0Of_init, hn]
    rfl

/-- C6 witness: the length, the interval bounds, and a `fit` producing the
freshly initialized vector before any training update. -/
theorem init_weights_spec_witness :
    (init_weights false (1 + 1) (fun _ => 1/4)).length = 1 + 1 ∧
    (∀ w ∈ init_weights false (1 + 1) (fun _ => 1/4), -(1/2) ≤ w ∧ w < -(3/10)) ∧
    fit ⟨1/100, 0, Solver.gd, false, false⟩ (fun _ => 1/4) (fun _ => [])
        ⟨[], 0, [], []⟩ [[5]] [0, 1, 0] true =
      .ok ⟨npUnique [0, 1, 0], thresOf [0, 1, 0],
        init_weights false (1 + 1) (fun _ => 1/4), []⟩ :=
  ⟨(init_weights_spec false 1 (fun _ => 1/4)).1,
   fun w hw => (init_weights_spec false 1 (fun _ => 1/4)).2.2.2.1
     (fun i => by norm_num) w hw,
   (init_weights_spec false 1 (fun _ => 1/4)).2.2.2.2 ⟨1/100, 0, Solver.gd, false, false⟩
     (fun _ => []) ⟨[], 0, [], []⟩ [[5]] [0, 1, 0] rfl rfl (by decide) (by decide)⟩

/-- C10: with the normal-equation solver, the final weight vector of a
successful `fit` is independent of the zero-init flag, the uniform draws,
the permutation stream, the pre-existing weights and the `reinitialize`
argument: the closed-form solution wholly overwrites the initialized
vector. -/
theorem normal_eq_result_independent (c : Config) (z1 z2 : Bool)
    (us1 us2 : ℕ → ℚ) (perms1 perms2 : ℕ → List ℕ) (m1 m2 : Model)
    (X : Mat) (y : Vec) (iw1 iw2 : Bool) (r1 r2 : Model)
    (hsol : c.solver = .normalEq)
    (h1 : fit { c with zero_init_weight := z1 } us1 perms1 m1 X y iw1 = .ok r1)
    (h2 : fit { c with zero_init_weight := z2 } us2 perms2 m2 X y iw2 = .ok r2) :
    r1.w_ = r2.w_ := by
  have hs1 : ({ c with zero_init_weight := z1 } : Config).solver = .normalEq := hsol
  have hs2 : ({ c with zero_init_weight := z2 } : Config).solver = .normalEq := hsol
  have e1 := fit_neq_ok_w hs1 h1
  have e2 := fit_neq_ok_w hs2 h2
  exact Except.ok.inj (e1.symm.trans e2)

/-- C10 witness: two normal-equation fits differing in the zero-init flag,
the uniform draws, the prior model and `reinitialize` give equal weights. -/
theorem normal_eq_result_independent_witness :
    fit ⟨1/10, 4, Solver.normalEq, false, true⟩ (fun _ => 0) (fun _ => [])
        ⟨[], 0, [], []⟩ [[0], [1]] [0, 1] true = .ok ⟨[0, 1], 1/2, [0, 1], []⟩ ∧
    fit ⟨1/10, 4, Solver.normalEq, false, false⟩ (fun _ => 1/2) (fun _ => [])
        ⟨[7], 7, [7, 7, 7], [7]⟩ [[0], [1]] [0, 1] false = .ok ⟨[0, 1], 1/2, [0, 1], []⟩ ∧
    (⟨[0, 1], 1/2, [0, 1], []⟩ : Model).w_ = (⟨[0, 1], 1/2, [0, 1], []⟩ : Model).w_ :=
  ⟨by decide, by decide,
   normal_eq_result_independent ⟨1/10, 4, Solver.normalEq, false, true⟩ true false
     (fun _ => 0) (fun _ => 1/2) (fun _ => []) (fun _ => []) ⟨[], 0, [], []⟩
     ⟨[7], 7, [7, 7, 7], [7]⟩ [[0], [1]] [0, 1] true false
     ⟨[0, 1], 1/2, [0, 1], []⟩ ⟨[0, 1], 1/2, [0, 1], []⟩ rfl (by decide) (by decide)⟩

end Adaline
